import Mathlib

/-!
Shallow embedding of the irtrx infrared decoding/encoding core.

Durations are modelled as `Int`, counting nanoseconds, matching Go's
`time.Duration` (a signed 64-bit nanosecond count; no trace considered here
approaches the 64-bit range).  Machine-word accumulators (`uint32`, `int16`)
are modelled as `Nat` with explicit `% 2 ^ w` truncation at the points where
the Go code can overflow the word.

Each decoder's `HandleTimePair` method becomes a step function
`state → TimePair → state × Option output`, where the `Option` carries the
argument of the completion-callback invocation (at most one per pulse).
Running a decoder over a pulse list threads the state and collects the
callback arguments in order.
-/

set_option maxRecDepth 100000

/-- Go `time.Microsecond` in nanoseconds.  Durations are modelled as `Int`,
counting nanoseconds, as Go `time.Duration` does. -/
def usec : Int := 1000

/-- Go `time.Millisecond` in nanoseconds. -/
def msec : Int := 1000000

/-- Go `irtrx.TimePair`: an (assert-duration, deassert-duration) pulse pair. -/
structure TimePair where
  onDur : Int
  offDur : Int
deriving DecidableEq, Repr

/-! ## Generic-Fixed-Code decoder (package cheapo) -/

/-- State of `cheapo.StateMachine`: `buf uint32`, `bitcount int`. -/
structure CheapoSM where
  buf : Nat
  bitcount : Nat
deriving DecidableEq, Repr

/-- Go `cheapo.StateMachine.HandleTimePair`.

Go source:
  on, off := pair[0], pair[1]
  switch {
  case on > 7*time.Millisecond: c.buf = 0; c.bitcount = 0; return
  case off > time.Millisecond:  c.buf |= 1 << c.bitcount; fallthrough
  case off < time.Millisecond:  c.bitcount++
  }
  if c.bitcount < 10 { return }
  c.CmdHandler(c.buf)

`1 << c.bitcount` is a `uint32` shift, hence the `% 2 ^ 32`; a deassert of
exactly one millisecond matches neither switch case. -/
def cheapoStep (c : CheapoSM) (p : TimePair) : CheapoSM × Option Nat :=
  if p.onDur > 7 * msec then
    ({ buf := 0, bitcount := 0 }, none)
  else
    let c1 : CheapoSM :=
      if p.offDur > msec then
        { buf := c.buf ||| ((1 <<< c.bitcount) % 2 ^ 32), bitcount := c.bitcount + 1 }
      else if p.offDur < msec then
        { c with bitcount := c.bitcount + 1 }
      else c
    if c1.bitcount < 10 then (c1, none) else (c1, some c1.buf)

/-- Thread `cheapoStep` over a pulse list, collecting callback values. -/
def cheapoRun (c : CheapoSM) : List TimePair → CheapoSM × List Nat
  | [] => (c, [])
  | p :: ps =>
    let s := cheapoStep c p
    let r := cheapoRun s.1 ps
    (r.1, s.2.toList ++ r.2)

/-! ## Addressed-32-bit decoder (package samsung) -/

/-- Go `samsung.Frame`: `Addr uint16`, `Cmd uint16`. -/
structure Frame where
  addr : Nat
  cmd : Nat
deriving DecidableEq, Repr

/-- Result of `samsung.Frame.UnmarshalFrame`: either the distinct
`ErrFrameAlloc` error (nil destination) or success having written the frame. -/
inductive UnmarshalResult where
  | errFrameAlloc
  | ok (f : Frame)
deriving DecidableEq, Repr

/-- Go `samsung.Frame.UnmarshalFrame`.  The receiver is a `*Frame`; `none`
models a nil pointer.  On success the destination's previous contents are
fully overwritten:
  f.Addr = uint16(buf & 0xFFFF); f.Cmd = uint16((buf >> 16) & 0xFFFF). -/
def UnmarshalFrame (dest : Option Frame) (buf : Nat) : UnmarshalResult :=
  match dest with
  | none => .errFrameAlloc
  | some _ => .ok { addr := buf &&& 0xFFFF, cmd := (buf >>> 16) &&& 0xFFFF }

/-- State of `samsung.StateMachine`: `buf uint32`, `bitcount int`. -/
structure SamsungSM where
  buf : Nat
  bitcount : Nat
deriving DecidableEq, Repr

/-- Go `samsung.StateMachine.HandleTimePair`.

Go source:
  on, off := pair[0], pair[1]
  switch {
  case on > 200*time.Millisecond: return
  case off > 3*time.Millisecond:
    if on > 3*time.Millisecond { sm.buf = 0; sm.bitcount = 0 }
    return
  }
  if on > time.Millisecond { sm.buf |= 1 << sm.bitcount }
  sm.bitcount++
  if sm.bitcount != 32 { return }
  var f Frame; f.UnmarshalFrame(sm.buf); sm.CmdHandler(f) -/
def samsungStep (sm : SamsungSM) (p : TimePair) : SamsungSM × Option Frame :=
  if p.onDur > 200 * msec then (sm, none)
  else if p.offDur > 3 * msec then
    if p.onDur > 3 * msec then ({ buf := 0, bitcount := 0 }, none) else (sm, none)
  else
    let buf := if p.onDur > msec then sm.buf ||| ((1 <<< sm.bitcount) % 2 ^ 32) else sm.buf
    let bitcount := sm.bitcount + 1
    if bitcount ≠ 32 then ({ buf := buf, bitcount := bitcount }, none)
    else
      ({ buf := buf, bitcount := bitcount },
        match UnmarshalFrame (some { addr := 0, cmd := 0 }) buf with
        | .ok f => some f
        | .errFrameAlloc => none)

/-- Thread `samsungStep` over a pulse list, collecting callback frames. -/
def samsungRun (sm : SamsungSM) : List TimePair → SamsungSM × List Frame
  | [] => (sm, [])
  | p :: ps =>
    let s := samsungStep sm p
    let r := samsungRun s.1 ps
    (r.1, s.2.toList ++ r.2)

/-- Go `samsung.StartPair = {6ms, 3ms}`. -/
def StartPair : TimePair := ⟨6 * msec, 3 * msec⟩

/-- Go `samsung.ZeroPair = {562µs, 1687µs}`. -/
def ZeroPair : TimePair := ⟨562 * usec, 1687 * usec⟩

/-- Go `samsung.OnePair = {562µs, 562µs}`. -/
def OnePair : TimePair := ⟨562 * usec, 562 * usec⟩

/-- Go `samsung.Frame.MarshalFrame`: start pair, 32 bit pairs LSB-first from
`buf = uint32(f.Cmd)<<16 | uint32(f.Addr)`, then a terminating zero pair. -/
def MarshalFrame (f : Frame) : List TimePair :=
  let buf := (((f.cmd % 2 ^ 16) <<< 16) ||| (f.addr % 2 ^ 16)) % 2 ^ 32
  StartPair ::
    ((List.range 32).map fun bit =>
      if (buf >>> bit) &&& 1 = 1 then OnePair else ZeroPair)
    ++ [ZeroPair]

/-! ## Parity-9-bit decoder (package hexbug) -/

/-- State of `hexbug.StateMachine`: `rcvbuf int16`, `bitcount int`,
`parity bool`.  Reachable `rcvbuf` values stay below `2 ^ 9`, far from the
`int16` sign bit. -/
structure HexbugSM where
  rcvbuf : Nat
  bitcount : Nat
  parity : Bool
deriving DecidableEq, Repr

/-- The zero value of `hexbug.StateMachine`. -/
def hexbugReset : HexbugSM := ⟨0, 0, false⟩

/-- Go `hexbug.StateMachine.HandleTimePair`.

Go source:
  on, off := pair[0], pair[1]
  if off > 1600*time.Microsecond {
    hb.rcvbuf = 0; hb.bitcount = 0; hb.parity = false; return
  }
  if off > 750*time.Microsecond {
    hb.rcvbuf |= 1 << hb.bitcount; hb.parity = !hb.parity
  }
  hb.bitcount++
  if hb.bitcount == 9 {
    if hb.parity { hb.cmdHandler(hb.rcvbuf) }
    hb.rcvbuf = 0; hb.bitcount = 0; hb.parity = false
  }

`1 << hb.bitcount` is an `int16` shift, hence the `% 2 ^ 16` bit-pattern
truncation (never reached from the reset state, where `bitcount ≤ 8`). -/
def hexbugStep (hb : HexbugSM) (p : TimePair) : HexbugSM × Option Nat :=
  if p.offDur > 1600 * usec then (⟨0, 0, false⟩, none)
  else
    let hb1 : HexbugSM :=
      if p.offDur > 750 * usec then
        { hb with rcvbuf := hb.rcvbuf ||| ((1 <<< hb.bitcount) % 2 ^ 16),
                  parity := !hb.parity }
      else hb
    let hb2 : HexbugSM := { hb1 with bitcount := hb1.bitcount + 1 }
    if hb2.bitcount = 9 then
      (⟨0, 0, false⟩, if hb2.parity then some hb2.rcvbuf else none)
    else (hb2, none)

/-- Thread `hexbugStep` over a pulse list, collecting callback values. -/
def hexbugRun (hb : HexbugSM) : List TimePair → HexbugSM × List Nat
  | [] => (hb, [])
  | p :: ps =>
    let s := hexbugStep hb p
    let r := hexbugRun s.1 ps
    (r.1, s.2.toList ++ r.2)

/-! ## Proportional-Multichannel decoder (package ppm) -/

/-- Go `ppm.minimumTimeBetweenFrames = 6 * time.Millisecond`. -/
def minimumTimeBetweenFrames : Int := 6 * msec

/-- Go `time.Duration.Round(m)`: rounds to the nearest multiple of `m`, halves
away from zero, using Go's truncated remainder; `m ≤ 0` returns the input
unchanged.  (Go saturates at the int64 bounds on overflow; the unbounded
`Int` model never overflows, and the overflow-guard comparisons in the Go
source are then always in the non-saturating branch.) -/
def durRound (d m : Int) : Int :=
  if m ≤ 0 then d
  else
    let r := Int.tmod d m
    if d < 0 then
      if -r + -r < m then d + -r else d - m + -r
    else
      if r + r < m then d - r else d + m - r

/-- Go `ppm.SafeChannelsMid`: all sixteen channels at 1500µs. -/
def SafeChannelsMid : Fin 16 → Int := fun _ => 1500 * usec

/-- State of `ppm.StateMachine`.  `last` is a `time.Time`, modelled as an
absolute nanosecond instant; `none` models the zero `time.Time`
(`IsZero()` true). -/
structure PPMSM where
  channels : Fin 16 → Int
  safeChannels : Fin 16 → Int
  Timeout : Int
  currentCh : Nat
  last : Option Int

/-- Go `ppm.NewStateMachine`: `Timeout = 100 * minimumTimeBetweenFrames`,
safe and live channel arrays both `SafeChannelsMid`, zero `last`. -/
def ppmNew : PPMSM :=
  { channels := SafeChannelsMid
    safeChannels := SafeChannelsMid
    Timeout := 100 * minimumTimeBetweenFrames
    currentCh := 0
    last := none }

/-- Go `ppm.StateMachine.HandleTimePair`, with the current wall-clock instant
`now` (the value `time.Now()` would return during this call) passed
explicitly.

Go source:
  on, off := pair[0], pair[1]
  if on > minimumTimeBetweenFrames {
    sm.last = time.Now(); sm.currentCh = 0; return
  }
  if sm.last.IsZero() { return }
  if sm.currentCh >= len(sm.channels) { return }
  on += off
  sm.channels[sm.currentCh] = on.Round(10 * time.Microsecond)
  sm.currentCh++ -/
def ppmStep (now : Int) (sm : PPMSM) (p : TimePair) : PPMSM :=
  if p.onDur > minimumTimeBetweenFrames then
    { sm with last := some now, currentCh := 0 }
  else if sm.last = none then sm
  else if h : sm.currentCh < 16 then
    { sm with
        channels :=
          Function.update sm.channels ⟨sm.currentCh, h⟩
            (durRound (p.onDur + p.offDur) (10 * usec))
        currentCh := sm.currentCh + 1 }
  else sm

/-- Thread `ppmStep` over a list of (wall-clock instant, pulse) pairs. -/
def ppmRun (sm : PPMSM) : List (Int × TimePair) → PPMSM
  | [] => sm
  | q :: qs => ppmRun (ppmStep q.1 sm q.2) qs

/-- Go `time.Since(t)` evaluated when the wall clock reads `now`.  On the zero
`time.Time`, Go's `Time.Sub` saturates at `maxDuration = 2^63 - 1` ns. -/
def timeSince (now : Int) (t : Option Int) : Int :=
  match t with
  | none => 2 ^ 63 - 1
  | some t0 => now - t0

/-- Go `ppm.StateMachine.IsSafe`: `time.Since(sm.last) > sm.Timeout`. -/
def IsSafe (sm : PPMSM) (now : Int) : Bool :=
  timeSince now sm.last > sm.Timeout

/-- Go `ppm.StateMachine.Channel`: the safe value once `Timeout` is exceeded,
otherwise the live decoded value. -/
def Channel (sm : PPMSM) (now : Int) (ch : Fin 16) : Int :=
  if IsSafe sm now then sm.safeChannels ch else sm.channels ch

/-- Go `ppm.StateMachine.Channels`: the safe array once `Timeout` is exceeded,
otherwise the live decoded array. -/
def Channels (sm : PPMSM) (now : Int) : Fin 16 → Int :=
  if IsSafe sm now then sm.safeChannels else sm.channels

/-! ## Bit-level helper facts -/

/-- Classification of a pulse by the Generic-Fixed-Code bit threshold. -/
def cheapoOne (p : TimePair) : Bool := decide (p.offDur > msec)

/-- LSB-first value of a classified Generic-Fixed-Code pulse sequence. -/
def cheapoEncode : List TimePair → Nat
  | [] => 0
  | p :: t => (if cheapoOne p then 1 else 0) + 2 * cheapoEncode t

/-- Classification of a pulse by the Parity-9-bit bit threshold. -/
def hexOne (p : TimePair) : Bool := decide (p.offDur > 750 * usec)

/-- Number of pulses classified as 1 by the Parity-9-bit decoder. -/
def hexOnes (ps : List TimePair) : Nat := ps.countP hexOne

/-- LSB-first value of a classified Parity-9-bit pulse sequence. -/
def hexEncode : List TimePair → Nat
  | [] => 0
  | p :: t => (if hexOne p then 1 else 0) + 2 * hexEncode t

lemma or_two_pow_eq_add {b k : Nat} (h : b < 2 ^ k) : b ||| 2 ^ k = b + 2 ^ k := by
  apply Nat.eq_of_testBit_eq
  intro i
  rcases Nat.lt_trichotomy i k with hik | rfl | hik
  · rw [Nat.testBit_or, Nat.testBit_two_pow_of_ne (by omega), Bool.or_false,
      Nat.add_comm, Nat.testBit_two_pow_add_gt hik]
  · rw [Nat.testBit_or, Nat.testBit_two_pow_self, Bool.or_true,
      Nat.add_comm, Nat.testBit_two_pow_add_eq, Nat.testBit_lt_two_pow h]
    rfl
  · have hle : (2 : Nat) ^ (k + 1) ≤ 2 ^ i := Nat.pow_le_pow_right (by norm_num) hik
    have hsucc : (2 : Nat) ^ (k + 1) = 2 * 2 ^ k := by rw [Nat.pow_succ]; ring
    have hbi : b + 2 ^ k < 2 ^ i := by omega
    have hb2 : b < 2 ^ i := by omega
    rw [Nat.testBit_or, Nat.testBit_lt_two_pow hb2,
      Nat.testBit_two_pow_of_ne (by omega : k ≠ i), Nat.testBit_lt_two_pow hbi]
    rfl

lemma shift_mod_two_pow {k w : Nat} (h : k < w) :
    (1 <<< k) % 2 ^ w = 2 ^ k := by
  rw [Nat.shiftLeft_eq, one_mul, Nat.mod_eq_of_lt]
  exact Nat.pow_lt_pow_right (by norm_num) h

/-! ## C2: Addressed-32-bit unmarshalling -/

/-- C2.  For every 32-bit value, `UnmarshalFrame` on a nil destination
returns the distinct frame-allocation error and produces no frame, and on an
allocated destination returns success with the address set to the low 16
bits and the command to the high 16 bits. -/
theorem samsung_unmarshal_spec (v : Nat) (f : Frame) (hv : v < 2 ^ 32) :
    UnmarshalFrame none v = .errFrameAlloc ∧
    UnmarshalFrame (some f) v = .ok ⟨v % 2 ^ 16, v / 2 ^ 16⟩ := by
  refine ⟨rfl, ?_⟩
  have e1 : v &&& 0xFFFF = v % 2 ^ 16 := by
    have h := Nat.and_pow_two_sub_one_eq_mod v 16
    norm_num at h
    exact h
  have hlt : v / 2 ^ 16 < 2 ^ 16 := by
    apply Nat.div_lt_of_lt_mul
    calc v < 2 ^ 32 := hv
      _ = 2 ^ 16 * 2 ^ 16 := by norm_num
  have e2 : (v >>> 16) &&& 0xFFFF = v / 2 ^ 16 := by
    have h := Nat.and_pow_two_sub_one_eq_mod (v >>> 16) 16
    norm_num at h
    rw [h, Nat.shiftRight_eq_div_pow]
    exact Nat.mod_eq_of_lt hlt
  simp only [UnmarshalFrame, e1, e2]

/-- Witness for C2 at `v = 0x56781234`. -/
theorem samsung_unmarshal_spec_witness :
    UnmarshalFrame none 0x56781234 = .errFrameAlloc ∧
    UnmarshalFrame (some ⟨0, 0⟩) 0x56781234 =
      .ok ⟨0x56781234 % 2 ^ 16, 0x56781234 / 2 ^ 16⟩ :=
  samsung_unmarshal_spec 0x56781234 ⟨0, 0⟩ (by norm_num)

/-! ## C1: Addressed-32-bit marshal/decode mismatch -/

/-- C1.  Evaluating the code on the claim's input: marshalling
`(address=0x1234, command=0x5678)` and feeding the 34 resulting pulse pairs
to a fresh decoder invokes the callback exactly once, but with the frame
`(address=1, command=0)` rather than the marshalled one: the start pair's
3 ms deassert fails the strict `off > 3ms` start test and is consumed as a
data bit (its 6 ms assert sets bit 0), and every marshalled bit pair has a
562 µs assert, below the `on > 1ms` bit-1 test, so all data bits decode
as 0. -/
theorem samsung_marshal_decode_mismatch :
    samsungRun ⟨0, 0⟩ (MarshalFrame ⟨0x1234, 0x5678⟩) =
      (⟨1, 34⟩, [⟨1, 0⟩]) ∧
    (Frame.mk 1 0) ≠ ⟨0x1234, 0x5678⟩ := by
  exact ⟨by decide, by decide⟩

/-! ## C5: Proportional-Multichannel staleness fallback -/

/-- C5.  For every in-range channel, when the elapsed time since the last
synchronization marker exceeds the configured timeout, `Channel` returns the
configured safe value and `Channels` the safe array; otherwise both return
the live decoded values. -/
theorem ppm_staleness_fallback (sm : PPMSM) (now : Int) (ch : Fin 16) :
    (timeSince now sm.last > sm.Timeout →
      Channel sm now ch = sm.safeChannels ch ∧ Channels sm now = sm.safeChannels) ∧
    (¬ timeSince now sm.last > sm.Timeout →
      Channel sm now ch = sm.channels ch ∧ Channels sm now = sm.channels) := by
  constructor <;> intro h <;> simp [Channel, Channels, IsSafe, h]

/-- Witness for C5 on the freshly constructed decoder (zero last-frame time,
hence stale) at channel 0 and wall-clock 0. -/
theorem ppm_staleness_fallback_witness :
    Channel ppmNew 0 0 = ppmNew.safeChannels 0 ∧
    Channels ppmNew 0 = ppmNew.safeChannels :=
  (ppm_staleness_fallback ppmNew 0 0).1 (by decide)

/-! ## C8: Addressed-32-bit repeat/no-signal band -/

/-- C8 counterexample.  The pulse `(on=4ms, off=300ms)` has a deassert
duration above the 200 ms repeat/no-signal threshold, yet from state
`(buf=1, bitcount=1)` it is not ignored: it resets the accumulator and
counter to zero (the ignore test in the code reads the assert duration, and
4ms ≤ 200ms falls through to the start-of-frame reset). -/
theorem samsung_ignore_band_counterexample :
    samsungStep ⟨1, 1⟩ ⟨4 * msec, 300 * msec⟩ = (⟨0, 0⟩, none) ∧
    (SamsungSM.mk 0 0) ≠ ⟨1, 1⟩ := by
  exact ⟨by rfl, by decide⟩

/-- C8 amended.  The repeat/no-signal band is selected by the assert
duration: every pulse whose assert duration exceeds 200 ms is ignored
entirely — accumulator and bit counter unchanged, no callback. -/
theorem samsung_ignore_band (sm : SamsungSM) (p : TimePair)
    (h : p.onDur > 200 * msec) : samsungStep sm p = (sm, none) := by
  simp [samsungStep, h]

/-- Witness for C8's amended theorem at `(on=201ms, off=0)`. -/
theorem samsung_ignore_band_witness :
    samsungStep ⟨5, 7⟩ ⟨201 * msec, 0⟩ = (⟨5, 7⟩, none) :=
  samsung_ignore_band ⟨5, 7⟩ ⟨201 * msec, 0⟩ (by decide)

/-! ## C10: Generic-Fixed-Code has no post-delivery reset -/

/-- C10.  Once the bit counter has reached 10, every further classified
non-start pulse increments the counter past the frame width and triggers an
additional callback carrying the current accumulator; only a start-marker
pulse returns the decoder to the reset state. -/
theorem cheapo_no_post_delivery_reset (c : CheapoSM) (p q : TimePair)
    (hon : p.onDur ≤ 7 * msec) (hcl : p.offDur ≠ msec) (hb : 10 ≤ c.bitcount)
    (hq : q.onDur > 7 * msec) :
    (cheapoStep c p).1.bitcount = c.bitcount + 1 ∧
    (cheapoStep c p).2 = some (cheapoStep c p).1.buf ∧
    cheapoStep c q = (⟨0, 0⟩, none) := by
  have hno : ¬ p.onDur > 7 * msec := not_lt.mpr hon
  have hnb : ¬ c.bitcount + 1 < 10 := by omega
  refine ⟨?_, ?_, by simp [cheapoStep, hq]⟩ <;>
  · rcases lt_or_gt_of_ne hcl with h1 | h1 <;>
      simp [cheapoStep, hno, hnb, h1, asymm h1]

/-- Witness for C10 at state `(buf=0, bitcount=10)` with a classified zero
pulse and a start pulse. -/
theorem cheapo_no_post_delivery_reset_witness :
    (cheapoStep ⟨0, 10⟩ ⟨0, 0⟩).1.bitcount = 11 ∧
    (cheapoStep ⟨0, 10⟩ ⟨0, 0⟩).2 = some (cheapoStep ⟨0, 10⟩ ⟨0, 0⟩).1.buf ∧
    cheapoStep ⟨0, 10⟩ ⟨8 * msec, 0⟩ = (⟨0, 0⟩, none) :=
  cheapo_no_post_delivery_reset ⟨0, 10⟩ ⟨0, 0⟩ ⟨8 * msec, 0⟩
    (by decide) (by decide) (by decide) (by decide)

/-! ## C7: strict-inequality threshold boundaries -/

/-- C7 counterexample.  From the reset state, a Generic-Fixed-Code pulse
with a deassert duration of exactly one millisecond is not classified as a
0 bit: it matches neither switch case, so no bit is appended and the bit
counter stays 0 instead of incrementing to 1 as the claim requires. -/
theorem cheapo_threshold_boundary_counterexample :
    (cheapoStep ⟨0, 0⟩ ⟨0, msec⟩).1.bitcount = 0 ∧
    (cheapoStep ⟨0, 0⟩ ⟨0, msec⟩).2 = none ∧ (0 : Nat) ≠ 1 := by
  exact ⟨by rfl, by rfl, by decide⟩

/-- C7 amended.  Thresholds are compared with strict inequality, so a
duration exactly at a threshold never takes the above-threshold branch: in
the Parity-9-bit decoder a deassert of exactly 750 µs is a 0 bit, and in the
Addressed-32-bit decoder a deassert of exactly 3 ms falls into the data band
(and an assert at or below 1 ms gives a 0 bit); but in the
Generic-Fixed-Code decoder a deassert of exactly 1 ms matches neither bit
branch — no bit is appended and the state is unchanged. -/
theorem strict_threshold_boundaries (c : CheapoSM) (hb : HexbugSM)
    (sm : SamsungSM) (a d : Int) (hc : c.bitcount < 10) (ha : a ≤ 7 * msec)
    (hhb : hb.bitcount + 1 ≠ 9) (hsm : sm.bitcount + 1 ≠ 32) (hd : d ≤ msec) :
    cheapoStep c ⟨a, msec⟩ = (c, none) ∧
    hexbugStep hb ⟨a, 750 * usec⟩ = ({ hb with bitcount := hb.bitcount + 1 }, none) ∧
    samsungStep sm ⟨d, 3 * msec⟩ = ({ sm with bitcount := sm.bitcount + 1 }, none) := by
  refine ⟨?_, ?_, ?_⟩
  · have h1 : ¬ a > 7 * msec := not_lt.mpr ha
    have h2 : ¬ (msec : Int) > msec := lt_irrefl _
    have h3 : ¬ (msec : Int) < msec := lt_irrefl _
    simp [cheapoStep, h1, h2, h3, hc]
  · have h1 : ¬ (750 * usec : Int) > 1600 * usec := by norm_num [usec]
    have h2 : ¬ (750 * usec : Int) > 750 * usec := lt_irrefl _
    simp [hexbugStep, h1, h2, hhb]
  · have h1 : ¬ d > 200 * msec := not_lt.mpr (le_trans hd (by norm_num [msec]))
    have h2 : ¬ (3 * msec : Int) > 3 * msec := lt_irrefl _
    have h3 : ¬ d > msec := not_lt.mpr hd
    simp [samsungStep, h1, h2, h3, hsm]

/-- Witness for C7's amended theorem at concrete mid-frame states. -/
theorem strict_threshold_boundaries_witness :
    cheapoStep ⟨0, 3⟩ ⟨0, msec⟩ = (⟨0, 3⟩, none) ∧
    hexbugStep ⟨0, 2, false⟩ ⟨0, 750 * usec⟩ = (⟨0, 3, false⟩, none) ∧
    samsungStep ⟨0, 4⟩ ⟨0, 3 * msec⟩ = (⟨0, 5⟩, none) :=
  strict_threshold_boundaries ⟨0, 3⟩ ⟨0, 2, false⟩ ⟨0, 4⟩ 0 0
    (by decide) (by decide) (by decide) (by decide) (by decide)

/-! ## C6: bounded accumulation -/

/-- C6 counterexample.  The Generic-Fixed-Code decoder's bit accumulation
exceeds its fixed 10-bit frame width: after a start marker and 11 classified
one pulses, the bit counter is 11 > 10 and bit 10 of the accumulator is
set. -/
theorem cheapo_overrun_counterexample :
    (cheapoRun ⟨0, 0⟩ (⟨8 * msec, 0⟩ :: List.replicate 11 ⟨0, 2 * msec⟩)).1.bitcount = 11 ∧
    Nat.testBit
      (cheapoRun ⟨0, 0⟩ (⟨8 * msec, 0⟩ :: List.replicate 11 ⟨0, 2 * msec⟩)).1.buf
      10 = true ∧
    ¬ (11 ≤ 10) := by
  exact ⟨by decide, by decide, by decide⟩

lemma cheapoStep_buf_lt (c : CheapoSM) (p : TimePair) (h : c.buf < 2 ^ 32) :
    (cheapoStep c p).1.buf < 2 ^ 32 := by
  have hor : c.buf ||| ((1 <<< c.bitcount) % 2 ^ 32) < 2 ^ 32 :=
    Nat.or_lt_two_pow h (Nat.mod_lt _ (by norm_num))
  by_cases h1 : p.onDur > 7 * msec
  · simp [cheapoStep, h1]
  · by_cases h2 : p.offDur > msec
    · by_cases h3 : c.bitcount + 1 < 10 <;>
        simp [cheapoStep, h1, h2, h3, hor, -Nat.reducePow]
    · by_cases h4 : p.offDur < msec
      · by_cases h3 : c.bitcount + 1 < 10 <;>
          simp [cheapoStep, h1, h2, h4, h3, h, -Nat.reducePow]
      · by_cases h3 : c.bitcount < 10 <;>
          simp [cheapoStep, h1, h2, h4, h3, h, -Nat.reducePow]

lemma samsungStep_buf_lt (sm : SamsungSM) (p : TimePair) (h : sm.buf < 2 ^ 32) :
    (samsungStep sm p).1.buf < 2 ^ 32 := by
  have hor : sm.buf ||| ((1 <<< sm.bitcount) % 2 ^ 32) < 2 ^ 32 :=
    Nat.or_lt_two_pow h (Nat.mod_lt _ (by norm_num))
  by_cases h1 : p.onDur > 200 * msec
  · simp [samsungStep, h1, h, -Nat.reducePow]
  · by_cases h2 : p.offDur > 3 * msec
    · by_cases h3 : p.onDur > 3 * msec <;>
        simp [samsungStep, h1, h2, h3, h, -Nat.reducePow]
    · by_cases h4 : p.onDur > msec <;>
        by_cases h5 : sm.bitcount + 1 = 32 <;>
        simp [samsungStep, h1, h2, h4, h5, hor, h, -Nat.reducePow]

lemma hexbugStep_inv (hb : HexbugSM) (p : TimePair)
    (hbc : hb.bitcount < 9) (hbuf : hb.rcvbuf < 2 ^ 9) :
    (hexbugStep hb p).1.bitcount < 9 ∧ (hexbugStep hb p).1.rcvbuf < 2 ^ 9 := by
  have hsh : (1 <<< hb.bitcount) % 2 ^ 16 < 2 ^ 9 := by
    rw [Nat.shiftLeft_eq, one_mul, Nat.mod_eq_of_lt]
    · exact Nat.pow_lt_pow_right (by norm_num) hbc
    · calc (2 : Nat) ^ hb.bitcount < 2 ^ 9 := Nat.pow_lt_pow_right (by norm_num) hbc
        _ < 2 ^ 16 := by norm_num
  have hor : hb.rcvbuf ||| ((1 <<< hb.bitcount) % 2 ^ 16) < 2 ^ 9 :=
    Nat.or_lt_two_pow hbuf hsh
  by_cases h1 : p.offDur > 1600 * usec
  · simp [hexbugStep, h1]
  · by_cases h2 : p.offDur > 750 * usec <;>
      by_cases h3 : hb.bitcount + 1 = 9 <;>
      simp [hexbugStep, h1, h2, h3, hor, hbuf, -Nat.reducePow] <;> omega

lemma ppmStep_ch_le (now : Int) (sm : PPMSM) (p : TimePair)
    (h : sm.currentCh ≤ 16) : (ppmStep now sm p).currentCh ≤ 16 := by
  unfold ppmStep
  split_ifs <;> simp_all
  omega

lemma cheapoRun_buf_lt (ps : List TimePair) : ∀ c : CheapoSM,
    c.buf < 2 ^ 32 → (cheapoRun c ps).1.buf < 2 ^ 32 := by
  induction ps with
  | nil => intro c h; exact h
  | cons p t ih =>
    intro c h
    simp only [cheapoRun]
    exact ih _ (cheapoStep_buf_lt c p h)

lemma samsungRun_buf_lt (ps : List TimePair) : ∀ sm : SamsungSM,
    sm.buf < 2 ^ 32 → (samsungRun sm ps).1.buf < 2 ^ 32 := by
  induction ps with
  | nil => intro sm h; exact h
  | cons p t ih =>
    intro sm h
    simp only [samsungRun]
    exact ih _ (samsungStep_buf_lt sm p h)

lemma hexbugRun_inv (ps : List TimePair) : ∀ hb : HexbugSM,
    hb.bitcount < 9 → hb.rcvbuf < 2 ^ 9 →
    (hexbugRun hb ps).1.bitcount < 9 ∧ (hexbugRun hb ps).1.rcvbuf < 2 ^ 9 := by
  induction ps with
  | nil => intro hb h1 h2; exact ⟨h1, h2⟩
  | cons p t ih =>
    intro hb h1 h2
    simp only [hexbugRun]
    have hs := hexbugStep_inv hb p h1 h2
    exact ih _ hs.1 hs.2

lemma ppmRun_ch_le (qs : List (Int × TimePair)) : ∀ sm : PPMSM,
    sm.currentCh ≤ 16 → (ppmRun sm qs).currentCh ≤ 16 := by
  induction qs with
  | nil => intro sm h; exact h
  | cons q t ih =>
    intro sm h
    simp only [ppmRun]
    exact ih _ (ppmStep_ch_le q.1 sm q.2 h)

/-- C6 amended.  In the Parity-9-bit and Proportional-Multichannel decoders
accumulation is bounded by the frame width (bit counter stays below 9 and
the nine accumulated bits fit in `2 ^ 9`; the channel index never passes the
16-entry capacity, so no write lands outside the channel array).  In the
Generic-Fixed-Code and Addressed-32-bit decoders the bit counter can exceed
the frame width (see the counterexample), but every accumulator write stays
inside the fixed-width 32-bit machine word: shifts past bit 31 truncate to
no-ops, so from reset the accumulator remains below `2 ^ 32` on every input
sequence. -/
theorem bounded_word_accumulation (ps : List TimePair)
    (qs : List (Int × TimePair)) :
    (cheapoRun ⟨0, 0⟩ ps).1.buf < 2 ^ 32 ∧
    (samsungRun ⟨0, 0⟩ ps).1.buf < 2 ^ 32 ∧
    (hexbugRun hexbugReset ps).1.bitcount < 9 ∧
    (hexbugRun hexbugReset ps).1.rcvbuf < 2 ^ 9 ∧
    (ppmRun ppmNew qs).currentCh ≤ 16 := by
  have hh := hexbugRun_inv ps hexbugReset (by norm_num [hexbugReset])
    (by norm_num [hexbugReset])
  exact ⟨cheapoRun_buf_lt ps ⟨0, 0⟩ (by norm_num),
    samsungRun_buf_lt ps ⟨0, 0⟩ (by norm_num),
    hh.1, hh.2, ppmRun_ch_le qs ppmNew (by norm_num [ppmNew])⟩

/-! ## Frame-decoding run lemmas -/

/-- Running parity flag of the Parity-9-bit decoder after consuming a pulse
list, starting from flag `par` (it toggles on every pulse classified 1). -/
def hexParAfter (par : Bool) (ps : List TimePair) : Bool :=
  ps.foldl (fun a p => if hexOne p then !a else a) par

lemma hexParAfter_eq (ps : List TimePair) : ∀ par : Bool,
    hexParAfter par ps = xor par (decide (hexOnes ps % 2 = 1)) := by
  induction ps with
  | nil => intro par; simp [hexParAfter, hexOnes]
  | cons p t ih =>
    intro par
    cases hb : hexOne p
    · have hfold : hexParAfter par (p :: t) = hexParAfter par t := by
        simp [hexParAfter, hb]
      rw [hfold, ih]
      simp [hexOnes, List.countP_cons, hb]
    · have hfold : hexParAfter par (p :: t) = hexParAfter (!par) t := by
        simp [hexParAfter, hb]
      have h2 : decide ((t.countP hexOne + 1) % 2 = 1) =
          !decide (t.countP hexOne % 2 = 1) := by
        rcases Nat.mod_two_eq_zero_or_one (t.countP hexOne) with ho | ho
        · have h1 : (t.countP hexOne + 1) % 2 = 1 := by omega
          simp [ho, h1]
        · have h1 : (t.countP hexOne + 1) % 2 = 0 := by omega
          simp [ho, h1]
      rw [hfold, ih]
      simp only [hexOnes, List.countP_cons, hb, if_true, h2]
      generalize decide (t.countP hexOne % 2 = 1) = b
      cases par <;> cases b <;> rfl

lemma hexbugRun_frame (ps : List TimePair) : ∀ (buf k : Nat) (par : Bool),
    k + ps.length = 9 → ps ≠ [] → buf < 2 ^ k →
    (∀ p ∈ ps, ¬ p.offDur > 1600 * usec) →
    hexbugRun ⟨buf, k, par⟩ ps =
      (hexbugReset,
        if hexParAfter par ps then [buf + 2 ^ k * hexEncode ps] else []) := by
  induction ps with
  | nil => intro buf k par hlen hne hbuf hns; exact absurd rfl hne
  | cons p t ih =>
    intro buf k par hlen hne hbuf hns
    have hlen1 : k + t.length + 1 = 9 := by
      simpa [Nat.add_assoc] using hlen
    have hk : k ≤ 8 := by omega
    have hp : ¬ p.offDur > 1600 * usec := hns p (by simp)
    have hsh : (1 <<< k) % 2 ^ 16 = 2 ^ k := by
      rw [Nat.shiftLeft_eq, one_mul, Nat.mod_eq_of_lt]
      calc (2 : Nat) ^ k ≤ 2 ^ 8 := Nat.pow_le_pow_right (by norm_num) hk
        _ < 2 ^ 16 := by norm_num
    have hstep : hexbugStep ⟨buf, k, par⟩ p =
        if k + 1 = 9 then
          ((⟨0, 0, false⟩ : HexbugSM),
            if (if hexOne p then !par else par) then
              some (if hexOne p then buf + 2 ^ k else buf) else none)
        else
          ((⟨(if hexOne p then buf + 2 ^ k else buf), k + 1,
              (if hexOne p then !par else par)⟩ : HexbugSM), none) := by
      by_cases h2 : p.offDur > 750 * usec
      · have hb1 : hexOne p = true := by simp [hexOne, h2]
        simp [hexbugStep, hp, h2, hb1, hsh, or_two_pow_eq_add hbuf,
          -Nat.reducePow]
      · have hb1 : hexOne p = false := by simp [hexOne, h2]
        simp [hexbugStep, hp, h2, hb1, -Nat.reducePow]
    by_cases ht : t = []
    · subst ht
      have hk8 : k = 8 := by simp at hlen1; omega
      subst hk8
      simp only [hexbugRun, hstep, if_pos rfl]
      cases hb : hexOne p <;> cases par <;>
        simp [hexParAfter, hexEncode, hexbugReset, hb]
    · have hne9 : k + 1 ≠ 9 := by
        have := List.length_pos.mpr ht
        omega
      have hbuf1 : (if hexOne p then buf + 2 ^ k else buf) < 2 ^ (k + 1) := by
        have : (2 : Nat) ^ (k + 1) = 2 ^ k * 2 := pow_succ 2 k
        cases hb : hexOne p <;> simp <;> omega
      have hih := ih (if hexOne p then buf + 2 ^ k else buf) (k + 1)
        (if hexOne p then !par else par) (by omega) ht hbuf1
        (fun q hq => hns q (by simp [hq]))
      simp only [hexbugRun, hstep, if_neg hne9, hih, Option.toList, List.nil_append]
      have hpar2 : hexParAfter (if hexOne p then !par else par) t
          = hexParAfter par (p :: t) := by
        simp [hexParAfter]
      have hval : (if hexOne p then buf + 2 ^ k else buf) + 2 ^ (k + 1) * hexEncode t
          = buf + 2 ^ k * hexEncode (p :: t) := by
        cases hb : hexOne p <;> simp [hexEncode, hb] <;> ring
      rw [hpar2, hval]

lemma hexEncode_bit (ps : List TimePair) : ∀ (i : Nat) (hi : i < ps.length),
    hexEncode ps / 2 ^ i % 2 = if hexOne (ps.get ⟨i, hi⟩) then 1 else 0 := by
  induction ps with
  | nil => intro i hi; simp at hi
  | cons p t ih =>
    intro i hi
    cases i with
    | zero =>
      simp only [hexEncode, List.get, pow_zero, Nat.div_one]
      by_cases hb : hexOne p = true <;> simp [hb]
    | succ j =>
      have hd : hexEncode (p :: t) / 2 ^ (j + 1) = hexEncode t / 2 ^ j := by
        have h2 : hexEncode (p :: t) / 2 = hexEncode t := by
          simp only [hexEncode]
          by_cases hb : hexOne p = true <;> simp [hb]
          all_goals omega
        rw [pow_succ', ← Nat.div_div_eq_div_mul, h2]
      rw [hd]
      simp only [List.get]
      exact ih j (by simpa using hi)

/-- Concrete 9-pulse probe frame: eight zero pulses then one one pulse
(odd count of ones, so a valid odd-parity frame). -/
def hexProbe : List TimePair := List.replicate 8 ⟨0, 0⟩ ++ [⟨0, 1000 * usec⟩]

/-! ## C3: Parity-9-bit acceptance -/

/-- C3.  From the reset state, feeding 9 non-start pulses invokes the
completion callback exactly once when the number of pulses classified 1 is
odd and not at all when it is even, and in both cases the accumulator, bit
counter and parity flag are reset to zero after the 9th bit. -/
theorem hexbug_parity_acceptance (ps : List TimePair) (h9 : ps.length = 9)
    (hns : ∀ p ∈ ps, ¬ p.offDur > 1600 * usec) :
    (hexbugRun hexbugReset ps).1 = hexbugReset ∧
    (hexbugRun hexbugReset ps).2.length = (if Odd (hexOnes ps) then 1 else 0) := by
  have hne : ps ≠ [] := by intro h; rw [h] at h9; simp at h9
  have h := hexbugRun_frame ps 0 0 false (by omega) hne (by norm_num) hns
  have hpar : hexParAfter false ps = decide (Odd (hexOnes ps)) := by
    rw [hexParAfter_eq]
    simp [Nat.odd_iff]
  rw [show hexbugReset = (⟨0, 0, false⟩ : HexbugSM) from rfl, h, hpar]
  refine ⟨rfl, ?_⟩
  by_cases hodd : Odd (hexOnes ps) <;> simp [hodd]

/-- Witness for C3, instantiating the theorem at the probe frame. -/
theorem hexbug_parity_acceptance_witness :
    (hexbugRun hexbugReset hexProbe).1 = hexbugReset ∧
    (hexbugRun hexbugReset hexProbe).2.length =
      (if Odd (hexOnes hexProbe) then 1 else 0) :=
  hexbug_parity_acceptance hexProbe (by decide) (by decide)

/-! ## C4: Parity-9-bit delivered value -/

/-- C4 counterexample.  Feeding eight zero data pulses followed by a one
parity pulse (odd total, valid frame) delivers the value 256, whose bit 8 —
the received parity bit — is set; the claimed button-mask/channel-only value
would be 0. -/
theorem hexbug_parity_bit_in_value :
    (hexbugRun hexbugReset hexProbe).2 = [256] ∧
    Nat.testBit 256 8 = true ∧ (256 : Nat) ≠ 0 := by
  exact ⟨by decide, by decide, by decide⟩

/-- C4 amended.  When a valid odd-parity frame is accepted, the delivered
value consists of all nine accumulated bits, LSB-first: bits 0–7 are the
button-mask and channel bits and bit 8 is the received parity bit — the
parity bit is included in, not excluded from, the delivered value. -/
theorem hexbug_delivered_value (ps : List TimePair) (h9 : ps.length = 9)
    (hns : ∀ p ∈ ps, ¬ p.offDur > 1600 * usec) (hodd : Odd (hexOnes ps)) :
    (hexbugRun hexbugReset ps).2 = [hexEncode ps] ∧
    ∀ (i : Nat) (hi : i < 9),
      hexEncode ps / 2 ^ i % 2 =
        if hexOne (ps.get ⟨i, lt_of_lt_of_eq hi h9.symm⟩) then 1 else 0 := by
  have hne : ps ≠ [] := by intro h; rw [h] at h9; simp at h9
  have h := hexbugRun_frame ps 0 0 false (by omega) hne (by norm_num) hns
  have hpar : hexParAfter false ps = true := by
    rw [hexParAfter_eq]
    simp [← Nat.odd_iff, hodd]
  refine ⟨?_, fun i hi => hexEncode_bit ps i (lt_of_lt_of_eq hi h9.symm)⟩
  rw [show hexbugReset = (⟨0, 0, false⟩ : HexbugSM) from rfl, h, hpar]
  simp

/-- Witness for C4's amended theorem at the probe frame: the delivered value
is the full encoded frame, and its bit 8 — the parity position — is 1. -/
theorem hexbug_delivered_value_witness :
    (hexbugRun hexbugReset hexProbe).2 = [hexEncode hexProbe] ∧
    hexEncode hexProbe / 2 ^ 8 % 2 = 1 := by
  refine ⟨(hexbug_delivered_value hexProbe (by decide) (by decide) (by decide)).1, ?_⟩
  have h := (hexbug_delivered_value hexProbe (by decide) (by decide)
    (by decide)).2 8 (by norm_num)
  rw [h]
  decide

/-! ## C9: Generic-Fixed-Code frame decode -/

lemma cheapoRun_frame (ps : List TimePair) : ∀ (buf k : Nat),
    k + ps.length = 10 → buf < 2 ^ k →
    (∀ p ∈ ps, p.onDur ≤ 7 * msec ∧ p.offDur ≠ msec) →
    cheapoRun ⟨buf, k⟩ ps =
      (⟨buf + 2 ^ k * cheapoEncode ps, k + ps.length⟩,
        if ps.length = 0 then [] else [buf + 2 ^ k * cheapoEncode ps]) := by
  induction ps with
  | nil => intro buf k hlen hbuf hcl; simp [cheapoRun, cheapoEncode]
  | cons p t ih =>
    intro buf k hlen hbuf hcl
    have hlen1 : k + t.length + 1 = 10 := by simpa [Nat.add_assoc] using hlen
    have hk : k ≤ 9 := by omega
    have hsh : (1 <<< k) % 2 ^ 32 = 2 ^ k := by
      rw [Nat.shiftLeft_eq, one_mul, Nat.mod_eq_of_lt]
      calc (2 : Nat) ^ k ≤ 2 ^ 9 := Nat.pow_le_pow_right (by norm_num) hk
        _ < 2 ^ 32 := by norm_num
    obtain ⟨hon, hoff⟩ := hcl p (by simp)
    have hno : ¬ p.onDur > 7 * msec := not_lt.mpr hon
    have hstep : cheapoStep ⟨buf, k⟩ p =
        ((⟨(if cheapoOne p then buf + 2 ^ k else buf), k + 1⟩ : CheapoSM),
          if k + 1 < 10 then none
          else some (if cheapoOne p then buf + 2 ^ k else buf)) := by
      by_cases h2 : p.offDur > msec
      · have hb1 : cheapoOne p = true := by simp [cheapoOne, h2]
        by_cases h3 : k + 1 < 10 <;>
          simp [cheapoStep, hno, h2, hb1, h3, hsh, or_two_pow_eq_add hbuf,
            -Nat.reducePow]
      · have hlt : p.offDur < msec := lt_of_le_of_ne (not_lt.mp h2) hoff
        have hb1 : cheapoOne p = false := by simp [cheapoOne, h2]
        by_cases h3 : k + 1 < 10 <;>
          simp [cheapoStep, hno, h2, hlt, hb1, h3, -Nat.reducePow]
    by_cases ht : t = []
    · subst ht
      have hk9 : k = 9 := by simp at hlen1; omega
      subst hk9
      simp only [cheapoRun, hstep]
      norm_num
      by_cases hb : cheapoOne p = true <;> simp [cheapoEncode, hb]
    · have h3 : k + 1 < 10 := by
        have hlp := List.length_pos.mpr ht
        omega
      have hbuf1 : (if cheapoOne p then buf + 2 ^ k else buf) < 2 ^ (k + 1) := by
        have hps : (2 : Nat) ^ (k + 1) = 2 ^ k * 2 := pow_succ 2 k
        by_cases hb : cheapoOne p = true <;> simp [hb] <;> omega
      have hih := ih (if cheapoOne p then buf + 2 ^ k else buf) (k + 1)
        (by omega) hbuf1 (fun q hq => hcl q (by simp [hq]))
      simp only [cheapoRun, hstep, if_pos h3, hih, Option.toList, List.nil_append]
      have hval : (if cheapoOne p then buf + 2 ^ k else buf)
            + 2 ^ (k + 1) * cheapoEncode t
          = buf + 2 ^ k * cheapoEncode (p :: t) := by
        by_cases hb : cheapoOne p = true <;> simp [cheapoEncode, hb] <;> ring
      rw [hval]
      have hlt0 : t.length ≠ 0 := by simpa using ht
      have hlen2 : k + 1 + t.length = k + (t.length + 1) := by omega
      simp [hlt0, hlen2]

lemma cheapoEncode_bit (ps : List TimePair) : ∀ (i : Nat) (hi : i < ps.length),
    cheapoEncode ps / 2 ^ i % 2 = if cheapoOne (ps.get ⟨i, hi⟩) then 1 else 0 := by
  induction ps with
  | nil => intro i hi; simp at hi
  | cons p t ih =>
    intro i hi
    cases i with
    | zero =>
      simp only [cheapoEncode, List.get, pow_zero, Nat.div_one]
      by_cases hb : cheapoOne p = true <;> simp [hb]
    | succ j =>
      have hd : cheapoEncode (p :: t) / 2 ^ (j + 1) = cheapoEncode t / 2 ^ j := by
        have h2 : cheapoEncode (p :: t) / 2 = cheapoEncode t := by
          simp only [cheapoEncode]
          by_cases hb : cheapoOne p = true <;> simp [hb]
          all_goals omega
        rw [pow_succ', ← Nat.div_div_eq_div_mul, h2]
      rw [hd]
      simp only [List.get]
      exact ih j (by simpa using hi)

/-- C9.  A pulse whose assert duration exceeds 7 ms resets the accumulator
and bit counter to exactly zero without invoking the callback; from there,
feeding exactly 10 classified pulses yields exactly one callback invocation
whose value has bit i (LSB-first) set precisely when the i-th pulse's
deassert duration exceeded the 1 ms bit threshold. -/
theorem cheapo_decode_frame (s : CheapoSM) (p0 : TimePair) (ps : List TimePair)
    (hstart : p0.onDur > 7 * msec) (h10 : ps.length = 10)
    (hcl : ∀ p ∈ ps, p.onDur ≤ 7 * msec ∧ p.offDur ≠ msec) :
    cheapoStep s p0 = (⟨0, 0⟩, none) ∧
    cheapoRun s (p0 :: ps) = (⟨cheapoEncode ps, 10⟩, [cheapoEncode ps]) ∧
    ∀ (i : Nat) (hi : i < 10),
      cheapoEncode ps / 2 ^ i % 2 =
        if cheapoOne (ps.get ⟨i, lt_of_lt_of_eq hi h10.symm⟩) then 1 else 0 := by
  have hstep0 : cheapoStep s p0 = (⟨0, 0⟩, none) := by simp [cheapoStep, hstart]
  refine ⟨hstep0, ?_, fun i hi => cheapoEncode_bit ps i (lt_of_lt_of_eq hi h10.symm)⟩
  have h := cheapoRun_frame ps 0 0 (by omega) (by norm_num) hcl
  simp only [cheapoRun, hstep0, h, Option.toList, List.nil_append]
  simp [h10]

/-- Concrete 10-pulse all-ones probe frame for the Generic-Fixed-Code
decoder. -/
def cheapoProbe : List TimePair := List.replicate 10 ⟨0, 2 * msec⟩

/-- Witness for C9: start marker from a dirty state, then ten one pulses,
decoding to 1023 with bit 0 set. -/
theorem cheapo_decode_frame_witness :
    cheapoStep ⟨7, 3⟩ ⟨8 * msec, 0⟩ = (⟨0, 0⟩, none) ∧
    cheapoRun ⟨7, 3⟩ (⟨8 * msec, 0⟩ :: cheapoProbe) =
      (⟨cheapoEncode cheapoProbe, 10⟩, [cheapoEncode cheapoProbe]) ∧
    cheapoEncode cheapoProbe / 2 ^ 0 % 2 = 1 := by
  have h := cheapo_decode_frame ⟨7, 3⟩ ⟨8 * msec, 0⟩ cheapoProbe
    (by decide) (by decide) (by decide)
  refine ⟨h.1, h.2.1, ?_⟩
  have h2 := h.2.2 0 (by norm_num)
  rw [h2]
  decide
